import Mathlib

set_option maxRecDepth 16384

/- Verification of the ihypy musical notation and tuning engine
   (systems.py together with the canonical value types in ihypy/theory.py).

   Shallow-embedding conventions: Python strings are modelled as `List Char`,
   Python `int` as `ℤ`, Python float arithmetic as exact arithmetic over `ℚ`
   (where the source only ever produces rationals) or `ℝ` (where genuine real
   powers occur), and fallible code returns `Option`/`Except`.  A `Note` is
   identified with its frequency, a real number.  The `\d` character class of
   the octave pattern is modelled by ASCII digits. -/

/-- Character-list representation of a string literal. -/
def lit (s : String) : List Char := s.data

/-- Python class `Interval` (ihypy/theory.py): a relation together with a unit
tag.  The Python attributes are `relation` and `unit`. -/
structure IntervalM where
  relation : ℚ
  unit : List Char
deriving DecidableEq

/-- Constructor `SemitoneInterval(semitones)`: sets `_relation` to the given
number and `_unit` to `"semitones"`. -/
def mkSemitoneInterval (q : ℚ) : IntervalM := ⟨q, lit "semitones"⟩

/-- The Python classes relevant to `SemitoneInterval.__add__`. -/
inductive PyClass where
  | intervalCls
  | semitoneIntervalCls
deriving DecidableEq

/-- A Python object as passed to `issubclass`: either a class or an instance. -/
inductive PyObj where
  | classOf (c : PyClass)
  | instanceOf (iv : IntervalM)

/-- Arguments stored in a raised `NotationError`: the source code passes either
plain strings or system objects (identified here by their `__str__` value). -/
inductive ErrArg where
  | str (s : List Char)
  | noteSys (name : List Char)
  | intervalSys (name : List Char)
  | tuningSys (name : List Char)
deriving DecidableEq

/-- Python exception `NotationError(notation, notation_system)` from
systems.py.  `faultyInput` models the Python attribute `notation` and
`sourceSystem` models the Python attribute `notation_system`. -/
structure NotationError where
  faultyInput : ErrArg
  sourceSystem : ErrArg
deriving DecidableEq

/-- The Python exceptions that the embedded code can raise. -/
inductive PyErr where
  | notErr (e : NotationError)
  | attrErr
  | keyErr
  | typeErr
deriving DecidableEq

instance {α : Type} [DecidableEq α] : DecidableEq (Except PyErr α) := fun a b =>
  match a, b with
  | .error e, .error e' =>
    if h : e = e' then isTrue (congrArg Except.error h)
    else isFalse fun hh => h (Except.error.inj hh)
  | .ok x, .ok y =>
    if h : x = y then isTrue (congrArg Except.ok h)
    else isFalse fun hh => h (Except.ok.inj hh)
  | .error _, .ok _ => isFalse fun hh => Except.noConfusion hh
  | .ok _, .error _ => isFalse fun hh => Except.noConfusion hh

/-- Subclass relation on the embedded classes (`SemitoneInterval` inherits
from `Interval`). -/
def isSubclassB : PyClass → PyClass → Bool
  | .semitoneIntervalCls, _ => true
  | .intervalCls, .intervalCls => true
  | .intervalCls, .semitoneIntervalCls => false

/-- Python builtin `issubclass`: raises `TypeError` when the first argument is
not a class. -/
def pyIssubclass : PyObj → PyObj → Except PyErr Bool
  | .classOf a, .classOf b => .ok (isSubclassB a b)
  | _, _ => .error .typeErr

/-- `IntervalM.__eq__` from ihypy/theory.py restricted to two `Interval`
operands (for which the `issubclass(type(other), IntervalM)` guard holds):
equal relation and equal unit. -/
def intervalEq (self other : IntervalM) : Bool :=
  decide (self.relation = other.relation) && decide (self.unit = other.unit)

/-- `SemitoneInterval.__add__` from ihypy/theory.py: the guard calls
`issubclass(other, self.__class__)` with the *instance* `other` as first
argument, so `issubclass` itself raises `TypeError`. -/
def semitoneAdd (self other : IntervalM) : Except PyErr IntervalM :=
  match pyIssubclass (.instanceOf other) (.classOf .semitoneIntervalCls) with
  | .error e => .error e
  | .ok b =>
    if !b then .error .typeErr
    else .ok ⟨self.relation + other.relation, lit "semitones"⟩

/-- `TwelveToneEqualTemperament.__init__`: the constant `2 ** (1 / 12)`. -/
noncomputable def tetR : ℝ := (2 : ℝ) ^ ((1 : ℝ) / 12)

/-- `TwelveToneEqualTemperament.get_frequency_ratio`: `r ** delta_half_step`. -/
noncomputable def tetRatio (delta : ℚ) : ℝ := tetR ^ (delta : ℝ)

/-- `FiveLimitTuning.__interval_ratio`: the fixed table of 12 rational
ratios. -/
def intervalRatioTable : List ℚ :=
  [1, 25/24, 9/8, 6/5, 5/4, 4/3, 45/32, 3/2, 8/5, 5/3, 9/5, 15/8]

/-- `FiveLimitTuning.get_frequency_ratio`: split the signed distance into a
sign, whole octaves and a within-octave index, then combine. -/
def fltGetFrequencyRatio (d : ℤ) : ℚ :=
  let ascending : ℤ := if d ≥ 0 then 1 else -1
  let octave : ℕ := d.natAbs / 12
  let interval : ℕ := d.natAbs % 12
  ((2 : ℚ) ^ octave * intervalRatioTable.getD interval 0) ^ ascending

/-- Python dict lookup over an insertion-ordered association list (a later
assignment to the same key wins, as in a Python `dict`). -/
def dlookup {α : Type} (t : List (List Char × α)) (k : List Char) : Option α :=
  t.foldl (fun acc kv => if kv.1 == k then some kv.2 else acc) none

/-- Dictionary `__pitch_conversion` of `InternationalPitchNotation`. -/
def pitchConversion : List (List Char × ℤ) :=
  [(lit "C", 0), (lit "D", 2), (lit "E", 4), (lit "F", 5),
   (lit "G", 7), (lit "A", 9), (lit "B", 11)]

/-- Dictionary `__accidental_conversion` of `InternationalPitchNotation`, in
source (insertion) order. -/
def accidentalConversion : List (List Char × ℤ) :=
  [(lit "𝄫", -2), (lit "bb", -2), (lit "double_flat", -2), (lit "df", -2),
   (lit "♭", -1), (lit "b", -1), (lit "flat", -1), (lit "f", -1),
   (lit "♮", 0), (lit "", 0), (lit "natural", 0), (lit "n", 0),
   (lit "♯", 1), (lit "#", 1), (lit "sharp", 1), (lit "s", 1),
   (lit "𝄪", 2), (lit "x", 2), (lit "double_sharp", 2), (lit "ds", 2)]

/-- The accidental spellings, in the order they appear as regex
alternatives. -/
def accidentalKeys : List (List Char) := accidentalConversion.map Prod.fst

/-- Character class `[A-G]` (the `__pitch` pattern). -/
def isPitchLetter (c : Char) : Bool :=
  c == 'A' || c == 'B' || c == 'C' || c == 'D' || c == 'E' || c == 'F' || c == 'G'

/-- Characters that can start a match of `[+-]?\d+`: a sign or a digit. -/
def isOctChar (c : Char) : Bool := c.isDigit || c == '+' || c == '-'

/-- Full match of the octave pattern `[+-]?\d+`. -/
def isOctave : List Char → Bool
  | [] => false
  | c :: cs =>
    if c == '+' || c == '-' then !cs.isEmpty && cs.all Char.isDigit
    else (c :: cs).all Char.isDigit

/-- Does a match of `[+-]?\d+` start at the head of the list? -/
def octMatchAt : List Char → Bool
  | [] => false
  | c :: cs =>
    if c.isDigit then true
    else if c == '+' || c == '-' then
      match cs with
      | [] => false
      | d :: _ => d.isDigit
    else false

/-- Index of the first match of `[A-G]`, i.e. `re.search(self.__pitch, ...)`. -/
def findPitchStart : List Char → Option ℕ
  | [] => none
  | c :: cs => if isPitchLetter c then some 0 else (findPitchStart cs).map (· + 1)

/-- Index of the first match of `[+-]?\d+`, i.e.
`re.search(self.__octave, ...)`. -/
def findOctaveStart : List Char → Option ℕ
  | [] => none
  | c :: cs => if octMatchAt (c :: cs) then some 0 else (findOctaveStart cs).map (· + 1)

/-- Value of an ASCII digit string. -/
def digitsVal (s : List Char) : ℕ :=
  s.foldl (fun n c => 10 * n + (c.toNat - 48)) 0

/-- Python `int(...)` restricted to the shapes the octave pattern produces:
an optional sign followed by one or more digits. -/
def pyInt (s : List Char) : Option ℤ :=
  match s with
  | [] => none
  | c :: cs =>
    if c == '+' then
      if !cs.isEmpty && cs.all Char.isDigit then some (digitsVal cs : ℤ) else none
    else if c == '-' then
      if !cs.isEmpty && cs.all Char.isDigit then some (-(digitsVal cs : ℤ)) else none
    else
      if (c :: cs).all Char.isDigit then some (digitsVal (c :: cs) : ℤ) else none

/-- `InternationalPitchNotation.__get_absolute_half_step`: split the string at
the end of the first `[A-G]` match and the start of the first `[+-]?\d+`
match, then combine the dictionary values as
`int(octave)*12 + pitch_conversion[pitch] + accidental_conversion[accidental]`.
Failing regex searches, failing dict lookups and a failing `int(...)` are all
collapsed into `none`. -/
def getAbsoluteHalfStep (s : List Char) : Option ℤ :=
  match findPitchStart s, findOctaveStart s with
  | some p, some i =>
    match dlookup pitchConversion (s.take (p + 1)),
          dlookup accidentalConversion ((s.drop (p + 1)).take (i - (p + 1))),
          pyInt (s.drop i) with
    | some pv, some av, some ov => some (ov * 12 + pv + av)
    | _, _, _ => none
  | _, _ => none

/-- Decomposition of an IPN string as pitch letter, accidental and octave,
trying the accidental alternatives in dictionary order — exactly the
behaviour of the compiled pattern `[A-G](alt₁|…|alt₂₀)[+-]?\d+`. -/
def decompose (s : List Char) : Option (Char × List Char × List Char) :=
  match s with
  | [] => none
  | c :: rest =>
    if isPitchLetter c then
      (accidentalKeys.find? fun k =>
          List.isPrefixOf k rest && isOctave (rest.drop k.length)).map
        (fun k => (c, k, rest.drop k.length))
    else none

/-- `validate_notation` for IPN: `re.fullmatch` of the compiled pattern
succeeds iff the string decomposes as pitch ++ accidental ++ octave. -/
def ipnValidate (s : List Char) : Bool := (decompose s).isSome

/-- Pitch-letter offset used by the specification formula (`C=0 … B=11`). -/
def pitchOffset (c : Char) : ℤ := (dlookup pitchConversion [c]).getD 0

/-- Accidental offset used by the specification formula. -/
def accOffset (k : List Char) : ℤ := (dlookup accidentalConversion k).getD 0

/-- Integer value of an octave token. -/
def octVal (o : List Char) : ℤ := (pyInt o).getD 0

/-- Specification-side absolute step of a valid IPN string:
`octave*12 + pitch_offset(letter) + accidental_offset(token)` over the
grammar decomposition (0 is never used: every valid string decomposes). -/
def specAbsStepOf (s : List Char) : ℤ :=
  match decompose s with
  | some (c, k, o) => octVal o * 12 + pitchOffset c + accOffset k
  | none => 0

/-- `str(InternationalPitchNotation())`. -/
def ipnName : List Char := lit "International Pitch Notation"

/-- `str(TwelveToneEqualTemperament())`. -/
def tetName : List Char := lit "EqualTemperament"

/-- `str(QualityNumberSystem())`. -/
def qnName : List Char := lit "Quality Number Notation"

/-- `InternationalPitchNotation.get_interval_between`: validate both
notations (raising `NotationError(bad_string, self)` for the first failure),
then subtract the absolute half steps. -/
def getIntervalBetween (fromN toN : List Char) : Except PyErr IntervalM :=
  if ipnValidate fromN = false then .error (.notErr ⟨.str fromN, .noteSys ipnName⟩)
  else if ipnValidate toN = false then .error (.notErr ⟨.str toN, .noteSys ipnName⟩)
  else
    match getAbsoluteHalfStep toN, getAbsoluteHalfStep fromN with
    | some a, some b => .ok ⟨((a - b : ℤ) : ℚ), lit "semitones"⟩
    | _, _ => .error .attrErr

/-- Helper for Python `str.title()` tracking whether the previous character
was alphabetic. -/
def pyTitleGo : Bool → List Char → List Char
  | _, [] => []
  | prevAlpha, c :: cs =>
    (if prevAlpha then c.toLower else c.toUpper) :: pyTitleGo c.isAlpha cs

/-- Python `str.title()` on the ASCII strings appearing in the interval
tables: uppercase a letter following a non-letter, lowercase the rest. -/
def pyTitle (s : List Char) : List Char := pyTitleGo false s

/-- Dictionary `__quality_conversion_perfect`. -/
def qualityConversionPerfect : List (List Char × ℚ) :=
  [(lit "diminished", -1), (lit "perfect", 0), (lit "augmented", 1)]

/-- Dictionary `__quality_conversion_perfect_abbrev`. -/
def qualityConversionPerfectAbbrev : List (List Char × ℚ) :=
  [(lit "d", -1), (lit "P", 0), (lit "A", 1)]

/-- Dictionary `__quality_conversion_imperfect` (half-integer adjustments). -/
def qualityConversionImperfect : List (List Char × ℚ) :=
  [(lit "diminished", -3/2), (lit "minor", -1/2), (lit "major", 1/2), (lit "augmented", 3/2)]

/-- Dictionary `__quality_conversion_imperfect_abbrev`. -/
def qualityConversionImperfectAbbrev : List (List Char × ℚ) :=
  [(lit "d", -3/2), (lit "m", -1/2), (lit "M", 1/2), (lit "A", 3/2)]

/-- Dictionary `__number_conversion_perfect`. -/
def numberConversionPerfect : List (List Char × ℚ) :=
  [(lit "unison", 0), (lit "fourth", 5), (lit "fifth", 7), (lit "octave", 12)]

/-- Dictionary `__number_conversion_perfect_abbrev`. -/
def numberConversionPerfectAbbrev : List (List Char × ℚ) :=
  [(lit "1", 0), (lit "4", 5), (lit "5", 7), (lit "8", 12)]

/-- Dictionary `__number_conversion_imperfect` (half-integer bases). -/
def numberConversionImperfect : List (List Char × ℚ) :=
  [(lit "second", 3/2), (lit "third", 7/2), (lit "sixth", 17/2), (lit "seventh", 21/2)]

/-- Dictionary `__number_conversion_imperfect_abbrev`. -/
def numberConversionImperfectAbbrev : List (List Char × ℚ) :=
  [(lit "2", 3/2), (lit "3", 7/2), (lit "6", 17/2), (lit "7", 21/2)]

/-- Dictionary `__alternative`. -/
def alternativeConversion : List (List Char × ℚ) :=
  [(lit "semitone", 1), (lit "half tone", 1), (lit "half step", 1),
   (lit "tone", 1), (lit "whole tone", 1), (lit "whole step", 1),
   (lit "trisemitone", 3), (lit "tritone", 6)]

/-- `QualityNumberSystem.__quality_number_conversion`, built in source order:
full names followed by their title-cased variant, then abbreviations, then
alternative names and their title-cased variants.  Each entry's value is
`semitone_guess + semitone_modification`. -/
def qnTable : List (List Char × ℚ) :=
  (qualityConversionPerfect.flatMap fun qm =>
    numberConversionPerfect.flatMap fun ng =>
      [(qm.1 ++ [' '] ++ ng.1, ng.2 + qm.2),
       (pyTitle (qm.1 ++ [' '] ++ ng.1), ng.2 + qm.2)])
  ++ (qualityConversionImperfect.flatMap fun qm =>
    numberConversionImperfect.flatMap fun ng =>
      [(qm.1 ++ [' '] ++ ng.1, ng.2 + qm.2),
       (pyTitle (qm.1 ++ [' '] ++ ng.1), ng.2 + qm.2)])
  ++ (qualityConversionPerfectAbbrev.flatMap fun qm =>
    numberConversionPerfectAbbrev.map fun ng => (qm.1 ++ ng.1, ng.2 + qm.2))
  ++ (qualityConversionImperfectAbbrev.flatMap fun qm =>
    numberConversionImperfectAbbrev.map fun ng => (qm.1 ++ ng.1, ng.2 + qm.2))
  ++ (alternativeConversion.flatMap fun qn => [(qn.1, qn.2), (pyTitle qn.1, qn.2)])

/-- `validate_notation` of `QualityNumberSystem`: `re.fullmatch` against the
alternation of all table keys, i.e. exact key membership. -/
def qnValidate (s : List Char) : Bool := qnTable.any fun kv => kv.1 == s

/-- `QualityNumberSystem.get_interval`: validate, then look the notation up in
the combination table and wrap it as a `SemitoneInterval`. -/
def qnGetInterval (s : List Char) : Except PyErr IntervalM :=
  if qnValidate s = false then .error (.notErr ⟨.str s, .intervalSys qnName⟩)
  else
    match dlookup qnTable s with
    | some v => .ok ⟨v, lit "semitones"⟩
    | none => .error .keyErr

/-- A configured `MusicalSystem`: its note-frequency function, interval
parser and tuning ratio. -/
structure MusicalSystemM where
  getFrequency : List Char → Except PyErr ℝ
  getIntervalN : List Char → Except PyErr IntervalM
  ratio : ℚ → ℝ

/-- `WesternClassicalSystem.get_frequency`: first `MusicalSystem.get_frequency`
validates and on failure raises
`NotationError(self.note_notation_system, self.tuning_system)`; then the
distance from the pitch standard `("A4", 440)` is converted through the
12-TET ratio. -/
noncomputable def wcsGetFrequency (s : List Char) : Except PyErr ℝ :=
  if ipnValidate s = false then
    .error (.notErr ⟨.noteSys ipnName, .tuningSys tetName⟩)
  else
    match getIntervalBetween (lit "A4") s with
    | .ok iv => .ok (440 * tetRatio iv.relation)
    | .error e => .error e

/-- The configured `WesternClassicalSystem()`: IPN, quality-number intervals
and 12-tone equal temperament. -/
noncomputable def wcsSystem : MusicalSystemM :=
  ⟨wcsGetFrequency, qnGetInterval, tetRatio⟩

/-- `MusicalSystem.create_note` (a `Note` is identified with its
frequency). -/
def createNoteM (sys : MusicalSystemM) (s : List Char) : Except PyErr ℝ :=
  sys.getFrequency s

/-- The loop body of `MusicalSystem.create_scale`: start from the resolved
note and repeatedly append the previous note's frequency times the tuning
ratio of the increment. -/
def scaleFold (ratio : ℚ → ℝ) (increment : List ℚ) (start : ℝ) : List ℝ :=
  increment.foldl (fun acc d => acc ++ [acc.getLastD start * ratio d]) [start]

/-- `MusicalSystem.create_scale`: resolve a string input through
`create_note`, then fold the scale increments. -/
def createScaleM (sys : MusicalSystemM) (scale : List ℚ) (note : ℝ ⊕ List Char) :
    Except PyErr (List ℝ) :=
  match (match note with
         | .inl f => Except.ok f
         | .inr s => createNoteM sys s) with
  | .error e => .error e
  | .ok start => .ok (scaleFold sys.ratio scale start)

/-- `MusicalSystem.create_interval`: parse a string interval through the
interval notation system; without a tonic return the bare interval, with a
tonic return the two singleton note groups. -/
def createInterval (sys : MusicalSystemM) (interval : IntervalM ⊕ List Char)
    (note : Option (ℝ ⊕ List Char)) : Except PyErr (IntervalM ⊕ List (List ℝ)) :=
  match (match interval with
         | .inl iv => Except.ok iv
         | .inr s => sys.getIntervalN s) with
  | .error e => .error e
  | .ok iv =>
    match note with
    | none => .ok (.inl iv)
    | some n =>
      match (match n with
             | .inl f => Except.ok f
             | .inr s => createNoteM sys s) with
      | .error e => .error e
      | .ok tonic => .ok (.inr [[tonic], [tonic * sys.ratio iv.relation]])

/-- All twelve table entries of the 5-limit tuning are positive. -/
lemma intervalRatioTable_pos : ∀ i < 12, 0 < intervalRatioTable.getD i 0 := by
  intro i hi
  interval_cases i <;> norm_num [intervalRatioTable]

/-- On a non-negative distance the 5-limit ratio is the plain product. -/
lemma flt_of_nonneg {d : ℤ} (h : d ≥ 0) :
    fltGetFrequencyRatio d =
      (2 : ℚ) ^ (d.natAbs / 12) * intervalRatioTable.getD (d.natAbs % 12) 0 := by
  simp only [fltGetFrequencyRatio]
  rw [if_pos h, zpow_one]

/-- On a negative distance the 5-limit ratio is the reciprocal. -/
lemma flt_of_neg {d : ℤ} (h : ¬ d ≥ 0) :
    fltGetFrequencyRatio d =
      ((2 : ℚ) ^ (d.natAbs / 12) * intervalRatioTable.getD (d.natAbs % 12) 0)⁻¹ := by
  simp only [fltGetFrequencyRatio]
  rw [if_neg h, zpow_neg_one]

/-- The base combined for a distance `d` is positive. -/
lemma flt_base_pos (d : ℤ) :
    0 < (2 : ℚ) ^ (d.natAbs / 12) * intervalRatioTable.getD (d.natAbs % 12) 0 := by
  have h12 : d.natAbs % 12 < 12 := Nat.mod_lt _ (by norm_num)
  have := intervalRatioTable_pos _ h12
  positivity

/-- The 5-limit ratio at distance 0 is exactly 1. -/
lemma flt_zero : fltGetFrequencyRatio 0 = 1 := by
  rw [flt_of_nonneg (by norm_num)]
  norm_num [intervalRatioTable]

/-- The 5-limit ratio at distance 12 is exactly 2. -/
lemma flt_twelve : fltGetFrequencyRatio 12 = 2 := by
  rw [flt_of_nonneg (by norm_num)]
  norm_num [intervalRatioTable]

/-- C3: for `FiveLimitTuning`, `get_frequency_ratio(0) == 1` and
`get_frequency_ratio(12) == 2` exactly, and for every integer `d` the ratio
at `d` and the ratio at `-d` multiply to 1, equivalently the ratio at `d` is
the reciprocal of the ratio at `-d`. -/
theorem claim3_thm :
    fltGetFrequencyRatio 0 = 1 ∧ fltGetFrequencyRatio 12 = 2 ∧
    ∀ d : ℤ, fltGetFrequencyRatio d * fltGetFrequencyRatio (-d) = 1 ∧
      fltGetFrequencyRatio d = (fltGetFrequencyRatio (-d))⁻¹ := by
  refine ⟨flt_zero, flt_twelve, ?_⟩
  intro d
  have hna : (-d).natAbs = d.natAbs := Int.natAbs_neg d
  by_cases h0 : d = 0
  · subst h0
    rw [neg_zero, flt_zero]
    norm_num
  rcases le_or_lt 0 d with hd | hd
  · have h1 : d ≥ 0 := hd
    have h2 : ¬ (-d ≥ 0) := by omega
    rw [flt_of_nonneg h1, flt_of_neg h2, hna]
    have hx := flt_base_pos d
    exact ⟨mul_inv_cancel₀ (ne_of_gt hx), (inv_inv _).symm⟩
  · have h1 : ¬ d ≥ 0 := by omega
    have h2 : -d ≥ 0 := by omega
    rw [flt_of_neg h1, flt_of_nonneg h2, hna]
    have hx := flt_base_pos d
    exact ⟨inv_mul_cancel₀ (ne_of_gt hx), rfl⟩

/-- The create-scale fold is a left scan. -/
lemma scaleFold_aux (ratio : ℚ → ℝ) (d₀ : ℝ) :
    ∀ (ds : List ℚ) (pre : List ℝ) (lastv : ℝ),
      ds.foldl (fun acc d => acc ++ [acc.getLastD d₀ * ratio d]) (pre ++ [lastv]) =
        pre ++ List.scanl (fun fr d => fr * ratio d) lastv ds := by
  intro ds
  induction ds with
  | nil => intro pre lastv; simp [List.scanl_nil]
  | cons d ds ih =>
    intro pre lastv
    simp only [List.foldl_cons]
    rw [List.getLastD_concat, ih (pre ++ [lastv]) (lastv * ratio d), List.scanl_cons]
    simp [List.append_assoc]

/-- `scaleFold` equals the scan of the increment list. -/
lemma scaleFold_eq_scanl (ratio : ℚ → ℝ) (incs : List ℚ) (f : ℝ) :
    scaleFold ratio incs f = List.scanl (fun fr d => fr * ratio d) f incs := by
  have h := scaleFold_aux ratio f incs [] f
  simpa [scaleFold] using h

/-- The first element of a scan is the start value. -/
lemma scanl_head (g : ℝ → ℚ → ℝ) (b : ℝ) (l : List ℚ) :
    (List.scanl g b l).getD 0 0 = b := by
  cases l <;> simp [List.scanl_nil, List.scanl_cons]

/-- Each successive element of a scan applies the step function. -/
lemma scanl_step (g : ℝ → ℚ → ℝ) :
    ∀ (l : List ℚ) (b : ℝ) (i : ℕ), i < l.length →
      (List.scanl g b l).getD (i + 1) 0 =
        g ((List.scanl g b l).getD i 0) (l.getD i 0) := by
  intro l
  induction l with
  | nil => intro b i h; simp at h
  | cons a l ih =>
    intro b i h
    rw [List.scanl_cons]
    cases i with
    | zero => simp [scanl_head]
    | succ i =>
      have hi : i < l.length := by simpa using Nat.lt_of_succ_lt_succ h
      simp only [List.singleton_append, List.getD_cons_succ]
      exact ih (g b a) i hi

/-- C4: `create_scale` resolves the note, returns exactly
`len(scale.increment) + 1` notes, starts with the input note's frequency
unchanged, and each subsequent note is the previous one times the tuning
ratio of the corresponding increment. -/
theorem claim4_thm :
    ∀ (sys : MusicalSystemM) (incs : List ℚ) (f : ℝ),
      createScaleM sys incs (Sum.inl f) = .ok (scaleFold sys.ratio incs f) ∧
      (scaleFold sys.ratio incs f).length = incs.length + 1 ∧
      (scaleFold sys.ratio incs f).getD 0 0 = f ∧
      ∀ i, i < incs.length →
        (scaleFold sys.ratio incs f).getD (i + 1) 0 =
          (scaleFold sys.ratio incs f).getD i 0 * sys.ratio (incs.getD i 0) := by
  intro sys incs f
  refine ⟨rfl, ?_, ?_, ?_⟩
  · rw [scaleFold_eq_scanl, List.length_scanl]
  · rw [scaleFold_eq_scanl]; exact scanl_head _ _ _
  · intro i hi
    rw [scaleFold_eq_scanl]
    exact scanl_step _ incs f i hi

/-- Witness for C4 at the concrete system `WesternClassicalSystem()`, the
increment list `[2, 2]` and the start frequency 440. -/
theorem claim4_wit :
    createScaleM wcsSystem [2, 2] (Sum.inl 440) =
        .ok (scaleFold wcsSystem.ratio [2, 2] 440) ∧
    (scaleFold wcsSystem.ratio [2, 2] 440).length = 3 ∧
    (scaleFold wcsSystem.ratio [2, 2] 440).getD 0 0 = 440 ∧
    (scaleFold wcsSystem.ratio [2, 2] 440).getD 1 0 =
      (scaleFold wcsSystem.ratio [2, 2] 440).getD 0 0 *
        wcsSystem.ratio (([2, 2] : List ℚ).getD 0 0) := by
  have h := claim4_thm wcsSystem [2, 2] 440
  exact ⟨h.1, h.2.1, h.2.2.1, h.2.2.2 0 (by norm_num)⟩

/-- C9: `Interval.__eq__` (canonical ihypy/theory.py) is true exactly for
identical unit and identical relation; intervals with different units are
never equal; and combining two intervals through `__add__` fails with a
`TypeError` rather than silently coercing. -/
theorem claim9_thm :
    (∀ a b : IntervalM, intervalEq a b = true ↔
      a.unit = b.unit ∧ a.relation = b.relation) ∧
    (∀ a b : IntervalM, a.unit ≠ b.unit → intervalEq a b = false) ∧
    (∀ a b : IntervalM, a.unit ≠ b.unit → semitoneAdd a b = .error .typeErr) := by
  refine ⟨?_, ?_, ?_⟩
  · intro a b
    simp only [intervalEq, Bool.and_eq_true, decide_eq_true_eq]
    exact ⟨fun h => ⟨h.2, h.1⟩, fun h => ⟨h.2, h.1⟩⟩
  · intro a b h
    simp only [intervalEq, Bool.and_eq_false_iff, decide_eq_false_iff_not]
    exact Or.inr h
  · intro a b _
    rfl

/-- Witness for C9 at two concrete intervals with different units. -/
theorem claim9_wit :
    intervalEq ⟨1, lit "semitones"⟩ ⟨1, lit "cents"⟩ = false ∧
    semitoneAdd ⟨1, lit "semitones"⟩ ⟨1, lit "cents"⟩ = .error .typeErr :=
  ⟨claim9_thm.2.1 ⟨1, lit "semitones"⟩ ⟨1, lit "cents"⟩ (by decide),
   claim9_thm.2.2 ⟨1, lit "semitones"⟩ ⟨1, lit "cents"⟩ (by decide)⟩

/-- C10: `SemitoneInterval.__add__` passes the instance `other` to
`issubclass`, which raises `TypeError`; hence every addition of two
intervals — including two with unit `"semitones"` — raises `TypeError` and
never produces the sum interval. -/
theorem claim10_thm : ∀ a b : IntervalM, semitoneAdd a b = .error .typeErr :=
  fun _ _ => rfl

/-- C6 (behaviour at the failing input): `create_note` on the invalid string
`"H4"` raises a `NotationError` whose `notation` attribute holds the note
notation system object and whose `notation_system` attribute holds the
tuning system object — not the offending string `"H4"` and the notation
system's name. -/
theorem claim6_thm :
    createNoteM wcsSystem (lit "H4") =
      .error (.notErr ⟨.noteSys ipnName, .tuningSys tetName⟩) := by
  have h : ipnValidate (lit "H4") = false := by decide
  simp [createNoteM, wcsSystem, wcsGetFrequency, h]

/-- Every value stored in the quality-number table has denominator 1. -/
lemma qnTable_den_one : ∀ kv ∈ qnTable, (kv.2).den = 1 := by
  have h : qnTable.all (fun kv => kv.2.den == 1) = true := by with_unfolding_all rfl
  intro kv hkv
  simpa using List.all_eq_true.mp h kv hkv

/-- A successful dict lookup returns a value stored in the list. -/
lemma dlookup_aux {α : Type} (k : List Char) (v : α) :
    ∀ (t : List (List Char × α)) (acc : Option α),
      t.foldl (fun acc kv => if kv.1 == k then some kv.2 else acc) acc = some v →
      (∃ kv, kv ∈ t ∧ kv.1 = k ∧ kv.2 = v) ∨ acc = some v := by
  intro t
  induction t with
  | nil => intro acc h; exact Or.inr h
  | cons kv t ih =>
    intro acc h
    rw [List.foldl_cons] at h
    rcases ih _ h with ⟨kv', hmem, hk, hv⟩ | hacc
    · exact Or.inl ⟨kv', List.mem_cons_of_mem _ hmem, hk, hv⟩
    · by_cases hb : (kv.1 == k) = true
      · rw [if_pos hb] at hacc
        exact Or.inl ⟨kv, List.mem_cons_self _ _, eq_of_beq hb, Option.some.inj hacc⟩
      · rw [if_neg hb] at hacc
        exact Or.inr hacc

/-- A successful dict lookup comes from an entry of the dictionary. -/
lemma dlookup_mem {α : Type} {t : List (List Char × α)} {k : List Char} {v : α}
    (h : dlookup t k = some v) : ∃ kv, kv ∈ t ∧ kv.1 = k ∧ kv.2 = v := by
  rcases dlookup_aux k v t none h with h' | h'
  · exact h'
  · simp at h'

/-- C8: every entry of the quality-number combination table is a whole number
of semitones (the half-integer bases and adjustments always cancel), and
therefore `get_interval` only ever returns integer-valued relations. -/
theorem claim8_thm :
    (∀ kv ∈ qnTable, ∃ n : ℤ, kv.2 = (n : ℚ)) ∧
    (∀ (s : List Char) (iv : IntervalM), qnGetInterval s = .ok iv →
      ∃ n : ℤ, iv.relation = (n : ℚ)) := by
  constructor
  · intro kv hkv
    exact ⟨kv.2.num, (Rat.coe_int_num_of_den_eq_one (qnTable_den_one kv hkv)).symm⟩
  · intro s iv h
    rw [qnGetInterval] at h
    by_cases hv : qnValidate s = false
    · rw [if_pos hv] at h
      exact absurd h (by simp)
    · rw [if_neg hv] at h
      cases hl : dlookup qnTable s with
      | none => rw [hl] at h; exact absurd h (by simp)
      | some v =>
        rw [hl] at h
        obtain ⟨kv, hmem, -, hv2⟩ := dlookup_mem hl
        have hden := qnTable_den_one kv hmem
        rw [hv2] at hden
        have hiv : iv = ⟨v, lit "semitones"⟩ := (Except.ok.inj h).symm
        exact ⟨v.num, by rw [hiv]; exact (Rat.coe_int_num_of_den_eq_one hden).symm⟩

/-- Witness for C8 at the table entry and notation for a perfect fifth. -/
theorem claim8_wit :
    (∃ n : ℤ, ((lit "P5", (7 : ℚ)).2 : ℚ) = (n : ℚ)) ∧
    (∃ n : ℤ, (IntervalM.mk 7 (lit "semitones")).relation = (n : ℚ)) :=
  ⟨claim8_thm.1 (lit "P5", 7)
     (List.mem_of_elem_eq_true (by with_unfolding_all rfl)),
   claim8_thm.2 (lit "P5") ⟨7, lit "semitones"⟩ (by with_unfolding_all rfl)⟩

/-- No accidental spelling contains a sign or digit character. -/
lemma accKeys_no_octChar : ∀ k ∈ accidentalKeys, ∀ c ∈ k, isOctChar c = false := by
  decide

/-- Accidental lookup succeeds on every key and returns its offset. -/
lemma accLookup_eq : ∀ k ∈ accidentalKeys,
    dlookup accidentalConversion k = some (accOffset k) := by decide

/-- A pitch letter is one of the seven characters of `[A-G]`. -/
lemma isPitchLetter_cases {c : Char} (h : isPitchLetter c = true) :
    c = 'A' ∨ c = 'B' ∨ c = 'C' ∨ c = 'D' ∨ c = 'E' ∨ c = 'F' ∨ c = 'G' := by
  simp only [isPitchLetter, Bool.or_eq_true_iff, beq_iff_eq] at h
  tauto

/-- A pitch letter is neither a digit nor a sign. -/
lemma pitchLetter_not_octChar {c : Char} (h : isPitchLetter c = true) :
    isOctChar c = false := by
  rcases isPitchLetter_cases h with h | h | h | h | h | h | h <;> subst h <;> decide

/-- Pitch lookup succeeds on every pitch letter and returns its offset. -/
lemma pitchLookup_eq {c : Char} (h : isPitchLetter c = true) :
    dlookup pitchConversion [c] = some (pitchOffset c) := by
  rcases isPitchLetter_cases h with h | h | h | h | h | h | h <;> subst h <;> decide

/-- A full octave match also matches at its head position. -/
lemma isOctave_head {o : List Char} (h : isOctave o = true) : octMatchAt o = true := by
  cases o with
  | nil => simp [isOctave] at h
  | cons c cs =>
    simp only [isOctave] at h
    by_cases hs : (c == '+' || c == '-') = true
    · rw [if_pos hs] at h
      rcases Bool.and_eq_true_iff.mp h with ⟨hne, hd⟩
      cases cs with
      | nil => simp at hne
      | cons d ds =>
        have hd' : d.isDigit = true := by
          simpa using List.all_eq_true.mp hd d (by simp)
        have hcnd : c.isDigit = false := by
          rcases Bool.or_eq_true_iff.mp hs with h' | h'
          · have hc : c = '+' := by simpa using h'
            subst hc; decide
          · have hc : c = '-' := by simpa using h'
            subst hc; decide
        simp [octMatchAt, hcnd, hs, hd']
    · rw [if_neg hs] at h
      have hc : c.isDigit = true := by
        simpa using List.all_eq_true.mp h c (by simp)
      simp [octMatchAt, hc]

/-- The head of a full octave match is a sign or a digit. -/
lemma isOctave_head_octChar {c : Char} {l : List Char}
    (h : isOctave (c :: l) = true) : isOctChar c = true := by
  simp only [isOctave] at h
  by_cases hs : (c == '+' || c == '-') = true
  · rcases Bool.or_eq_true_iff.mp hs with h' | h'
    · have hc : c = '+' := by simpa using h'
      subst hc; decide
    · have hc : c = '-' := by simpa using h'
      subst hc; decide
  · rw [if_neg hs] at h
    have hc : c.isDigit = true := by
      simpa using List.all_eq_true.mp h c (by simp)
    simp [isOctChar, hc]

/-- The octave search skips a prefix free of signs and digits and stops at
the first position where the octave pattern matches. -/
lemma findOctaveStart_append (pre o : List Char)
    (hpre : ∀ c ∈ pre, isOctChar c = false) (ho : octMatchAt o = true) :
    findOctaveStart (pre ++ o) = some pre.length := by
  induction pre with
  | nil =>
    cases o with
    | nil => simp [octMatchAt] at ho
    | cons c cs => simp [findOctaveStart, ho]
  | cons p ps ih =>
    have hp : isOctChar p = false := hpre p (List.mem_cons_self _ _)
    have h3 := hp
    simp only [isOctChar, Bool.or_eq_false_iff] at h3
    obtain ⟨⟨hpd, hplus⟩, hminus⟩ := h3
    have hm : octMatchAt (p :: (ps ++ o)) = false := by
      simp [octMatchAt, hpd, hplus, hminus]
    have ih' := ih (fun c hc => hpre c (List.mem_cons_of_mem _ hc))
    simp [List.cons_append, findOctaveStart, hm, ih']

/-- On a full octave match, the embedded `int(...)` succeeds. -/
lemma pyInt_some {o : List Char} (h : isOctave o = true) :
    pyInt o = some (octVal o) := by
  have hs : (pyInt o).isSome = true := by
    cases o with
    | nil => simp [isOctave] at h
    | cons c cs =>
      simp only [isOctave] at h
      by_cases hplus : (c == '+') = true
      · have hsign : (c == '+' || c == '-') = true := by simp [hplus]
        rw [if_pos hsign] at h
        simp [pyInt, hplus, h]
      · by_cases hminus : (c == '-') = true
        · have hsign : (c == '+' || c == '-') = true := by simp [hminus]
          rw [if_pos hsign] at h
          simp [pyInt, hplus, hminus, h]
        · have hsign : ¬ ((c == '+' || c == '-') = true) := by simp [hplus, hminus]
          rw [if_neg hsign] at h
          simp [pyInt, hplus, hminus, h]
  obtain ⟨z, hz⟩ := Option.isSome_iff_exists.mp hs
  rw [hz, octVal, hz]
  rfl

/-- Absolute half step of a decomposed IPN string: the search-based splitting
recovers the grammar decomposition and yields the specification formula. -/
lemma absStep_decomposed {c : Char} {k o : List Char}
    (hc : isPitchLetter c = true) (hk : k ∈ accidentalKeys) (ho : isOctave o = true) :
    getAbsoluteHalfStep (c :: (k ++ o)) =
      some (octVal o * 12 + pitchOffset c + accOffset k) := by
  have hfp : findPitchStart (c :: (k ++ o)) = some 0 := by
    simp [findPitchStart, hc]
  have hpre : ∀ x ∈ c :: k, isOctChar x = false := by
    intro x hx
    rcases List.mem_cons.mp hx with rfl | hx
    · exact pitchLetter_not_octChar hc
    · exact accKeys_no_octChar k hk x hx
  have hfo : findOctaveStart (c :: (k ++ o)) = some (k.length + 1) := by
    have h1 := findOctaveStart_append (c :: k) o hpre (isOctave_head ho)
    simpa using h1
  have ht2 : ((c :: (k ++ o)).drop (0 + 1)).take (k.length + 1 - (0 + 1)) = k := by
    simp [List.take_left]
  have ht3 : (c :: (k ++ o)).drop (k.length + 1) = o := by
    simp [List.drop_left]
  simp only [getAbsoluteHalfStep, hfp, hfo, ht2, ht3]
  rw [show (c :: (k ++ o)).take (0 + 1) = [c] from rfl,
    pitchLookup_eq hc, accLookup_eq k hk, pyInt_some ho]

/-- What a successful decomposition tells us about the input string. -/
lemma decompose_spec {s : List Char} {c : Char} {k o : List Char}
    (h : decompose s = some (c, k, o)) :
    s = c :: (k ++ o) ∧ isPitchLetter c = true ∧ k ∈ accidentalKeys ∧
      isOctave o = true := by
  cases s with
  | nil => simp [decompose] at h
  | cons c₀ rest =>
    by_cases hp : isPitchLetter c₀ = true
    · simp only [decompose] at h
      rw [if_pos hp] at h
      cases hf : accidentalKeys.find?
          (fun k => List.isPrefixOf k rest && isOctave (rest.drop k.length)) with
      | none => rw [hf] at h; simp at h
      | some k₀ =>
        rw [hf] at h
        simp only [Option.map_some'] at h
        obtain ⟨rfl, rfl, rfl⟩ :
            c = c₀ ∧ k = k₀ ∧ o = rest.drop k₀.length := by
          have h' := Option.some.inj h
          rw [Prod.mk.injEq] at h'
          obtain ⟨hc', hrest⟩ := h'
          rw [Prod.mk.injEq] at hrest
          exact ⟨hc'.symm, hrest.1.symm, hrest.2.symm⟩
        have hpred := List.find?_some hf
        have hmem := List.mem_of_find?_eq_some hf
        rcases Bool.and_eq_true_iff.mp hpred with ⟨hpref, hoct⟩
        have hpfx : k <+: rest := List.isPrefixOf_iff_prefix.mp hpref
        obtain ⟨t, ht⟩ := hpfx
        have hdrop : rest.drop k.length = t := by rw [← ht, List.drop_left]
        refine ⟨?_, hp, hmem, hoct⟩
        rw [hdrop, ← ht]
    · simp only [decompose] at h
      rw [if_neg hp] at h
      simp at h

/-- On a validated string the code's absolute half step equals the
specification formula over the decomposition. -/
lemma absStep_of_valid {s : List Char} (h : ipnValidate s = true) :
    getAbsoluteHalfStep s = some (specAbsStepOf s) := by
  rw [ipnValidate] at h
  obtain ⟨⟨c, k, o⟩, hd⟩ := Option.isSome_iff_exists.mp h
  obtain ⟨hs, hc, hk, ho⟩ := decompose_spec hd
  simp only [specAbsStepOf, hd]
  rw [hs]
  exact absStep_decomposed hc hk ho

/-- `get_interval_between` on two validated strings. -/
lemma getIntervalBetween_valid {s t : List Char}
    (hs : ipnValidate s = true) (ht : ipnValidate t = true) :
    getIntervalBetween s t =
      .ok ⟨((specAbsStepOf t - specAbsStepOf s : ℤ) : ℚ), lit "semitones"⟩ := by
  simp only [getIntervalBetween]
  rw [if_neg (by simp [hs]), if_neg (by simp [ht]),
    absStep_of_valid ht, absStep_of_valid hs]

/-- On an integer-valued relation, the 12-TET ratio is an integer power. -/
lemma tetRatio_intCast (n : ℤ) : tetRatio ((n : ℚ)) = tetR ^ n := by
  rw [tetRatio, Rat.cast_intCast, Real.rpow_intCast]

/-- `WesternClassicalSystem.get_frequency` on a validated string. -/
lemma wcsGetFrequency_valid {s : List Char} (h : ipnValidate s = true) :
    wcsGetFrequency s =
      .ok (440 * tetR ^ (specAbsStepOf s - specAbsStepOf (lit "A4"))) := by
  have hA4 : ipnValidate (lit "A4") = true := by decide
  rw [wcsGetFrequency, if_neg (by simp [h]), getIntervalBetween_valid hA4 h]
  exact congrArg (fun x => Except.ok ((440 : ℝ) * x))
    (tetRatio_intCast (specAbsStepOf s - specAbsStepOf (lit "A4")))

/-- The pitch standard is its own fixed point: `get_frequency("A4") = 440`. -/
lemma wcs_A4 : wcsGetFrequency (lit "A4") = .ok 440 := by
  rw [wcsGetFrequency_valid (by decide), sub_self, zpow_zero, mul_one]

/-- C1: for every IPN string accepted by `validate_notation`,
`WesternClassicalSystem().create_note` returns the note whose frequency is
440 times `(2^(1/12))` raised to `absolute_step(s) - absolute_step("A4")`,
where the absolute step is `octave*12 + pitch_offset + accidental_offset`
over the grammar decomposition; in particular the pitch standard A4 maps to
exactly 440. -/
theorem claim1_thm :
    (∀ s : List Char, ipnValidate s = true →
      createNoteM wcsSystem s =
        .ok (440 * tetR ^ (specAbsStepOf s - specAbsStepOf (lit "A4")))) ∧
    createNoteM wcsSystem (lit "A4") = .ok 440 := by
  constructor
  · intro s hs
    show wcsGetFrequency s = _
    exact wcsGetFrequency_valid hs
  · show wcsGetFrequency (lit "A4") = _
    exact wcs_A4

/-- Witness for C1 at the valid notation `"C5"`. -/
theorem claim1_wit :
    createNoteM wcsSystem (lit "C5") =
      .ok (440 * tetR ^ (specAbsStepOf (lit "C5") - specAbsStepOf (lit "A4"))) :=
  claim1_thm.1 (lit "C5") (by decide)

/-- C2: `get_interval_between` on two validated IPN strings returns a
semitone interval whose relation is the difference of absolute steps; the
three concrete distances from the specification hold; and an invalid string
makes the call fail with a `NotationError` before any distance is computed
(the first failing string is reported). -/
theorem claim2_thm :
    (∀ s t : List Char, ipnValidate s = true → ipnValidate t = true →
      getIntervalBetween s t =
        .ok ⟨((specAbsStepOf t - specAbsStepOf s : ℤ) : ℚ), lit "semitones"⟩) ∧
    getIntervalBetween (lit "C4") (lit "C5") = .ok ⟨12, lit "semitones"⟩ ∧
    getIntervalBetween (lit "A4") (lit "A4") = .ok ⟨0, lit "semitones"⟩ ∧
    getIntervalBetween (lit "C4") (lit "G4") = .ok ⟨7, lit "semitones"⟩ ∧
    (∀ s t : List Char, ipnValidate s = false →
      getIntervalBetween s t = .error (.notErr ⟨.str s, .noteSys ipnName⟩)) ∧
    (∀ s t : List Char, ipnValidate t = false →
      ∃ e : NotationError, getIntervalBetween s t = .error (.notErr e)) := by
  refine ⟨fun s t hs ht => getIntervalBetween_valid hs ht,
    by with_unfolding_all rfl, by with_unfolding_all rfl, by with_unfolding_all rfl,
    ?_, ?_⟩
  · intro s t hs
    simp only [getIntervalBetween]
    rw [if_pos hs]
  · intro s t ht
    by_cases hs : ipnValidate s = false
    · refine ⟨⟨.str s, .noteSys ipnName⟩, ?_⟩
      simp only [getIntervalBetween]
      rw [if_pos hs]
    · refine ⟨⟨.str t, .noteSys ipnName⟩, ?_⟩
      simp only [getIntervalBetween]
      rw [if_neg hs, if_pos ht]

/-- Witness for C2: a generic distance at `"E2"`/`"F3"` and both failure
modes at the invalid string `"H4"`. -/
theorem claim2_wit :
    getIntervalBetween (lit "E2") (lit "F3") =
      .ok ⟨((specAbsStepOf (lit "F3") - specAbsStepOf (lit "E2") : ℤ) : ℚ),
        lit "semitones"⟩ ∧
    getIntervalBetween (lit "H4") (lit "A4") =
      .error (.notErr ⟨.str (lit "H4"), .noteSys ipnName⟩) ∧
    (∃ e : NotationError,
      getIntervalBetween (lit "A4") (lit "H4") = .error (.notErr e)) :=
  ⟨claim2_thm.1 (lit "E2") (lit "F3") (by decide) (by decide),
   claim2_thm.2.2.2.2.1 (lit "H4") (lit "A4") (by decide),
   claim2_thm.2.2.2.2.2 (lit "A4") (lit "H4") (by decide)⟩

/-- C5: `create_interval` without a tonic returns the bare interval (parsing
a string interval through the interval notation system first); with a tonic
it returns exactly the two singleton groups `[[tonic],
[tonic.frequency * ratio(relation)]]`; and concretely
`create_interval("P5", "A4")` yields two singleton groups whose second
frequency is `440 * ratio(7)`. -/
theorem claim5_thm :
    (∀ (sys : MusicalSystemM) (iv : IntervalM),
      createInterval sys (Sum.inl iv) none = .ok (Sum.inl iv)) ∧
    (∀ (sys : MusicalSystemM) (s : List Char) (iv : IntervalM),
      sys.getIntervalN s = .ok iv →
      createInterval sys (Sum.inr s) none = .ok (Sum.inl iv)) ∧
    (∀ (sys : MusicalSystemM) (iv : IntervalM) (f : ℝ),
      createInterval sys (Sum.inl iv) (some (Sum.inl f)) =
        .ok (Sum.inr [[f], [f * sys.ratio iv.relation]])) ∧
    createInterval wcsSystem (Sum.inr (lit "P5")) (some (Sum.inr (lit "A4"))) =
      .ok (Sum.inr [[(440 : ℝ)], [440 * tetRatio 7]]) := by
  refine ⟨fun sys iv => rfl, ?_, fun sys iv f => rfl, ?_⟩
  · intro sys s iv h
    simp [createInterval, h]
  · have h1 : qnGetInterval (lit "P5") = .ok ⟨7, lit "semitones"⟩ := by
      with_unfolding_all rfl
    simp [createInterval, wcsSystem, h1, createNoteM, wcs_A4]

/-- Witness for C5's string-parsing clause at the alias `"tritone"`. -/
theorem claim5_wit :
    createInterval wcsSystem (Sum.inr (lit "tritone")) none =
      .ok (Sum.inl ⟨6, lit "semitones"⟩) :=
  claim5_thm.2.1 wcsSystem (lit "tritone") ⟨6, lit "semitones"⟩
    (by with_unfolding_all rfl)

/-- C7 counterexample: the flat spelling `"b"` and the double-flat spelling
`"bb"` lie in different offset categories, yet `"b"` is a string-prefix of
`"bb"` — so the claimed cross-category prefix-freeness fails. -/
theorem claim7_counterex :
    (lit "b") ∈ accidentalKeys ∧ (lit "bb") ∈ accidentalKeys ∧
    accOffset (lit "b") ≠ accOffset (lit "bb") ∧
    List.isPrefixOf (lit "b") (lit "bb") = true := by decide

/-- An accidental key that is a prefix of another key cannot itself be
followed by a well-formed octave inside that other key. -/
lemma key_prefix_eq {rest k k' : List Char} (hk' : k' ∈ accidentalKeys)
    (hkk : k <+: k') (hp' : k' <+: rest)
    (ho : isOctave (rest.drop k.length) = true) : k = k' := by
  by_contra hne
  have hlt : k.length < k'.length := by
    rcases Nat.lt_or_ge k.length k'.length with h | h
    · exact h
    · exact absurd (hkk.eq_of_length_le h) hne
  obtain ⟨t, ht⟩ := hp'
  obtain ⟨u, hu⟩ := hkk
  have hdrop : rest.drop k.length = u ++ t := by
    rw [← ht, ← hu, List.append_assoc, List.drop_left]
  cases u with
  | nil =>
    rw [List.append_nil] at hu
    exact hne hu
  | cons x u' =>
    have hx : x ∈ k' := by
      rw [← hu]; exact List.mem_append_right _ (List.mem_cons_self _ _)
    have hxo : isOctChar x = false := accKeys_no_octChar k' hk' x hx
    rw [hdrop] at ho
    have hxo' : isOctChar x = true := isOctave_head_octChar (l := u' ++ t) (by
      simpa [List.cons_append] using ho)
    rw [hxo] at hxo'
    exact Bool.false_ne_true hxo'

/-- Uniqueness of the accidental split: at most one accidental key can be a
prefix of the remainder and be followed by a well-formed octave. -/
lemma accSplit_unique :
    ∀ (rest k₁ k₂ : List Char), k₁ ∈ accidentalKeys → k₂ ∈ accidentalKeys →
      List.isPrefixOf k₁ rest = true → isOctave (rest.drop k₁.length) = true →
      List.isPrefixOf k₂ rest = true → isOctave (rest.drop k₂.length) = true →
      k₁ = k₂ := by
  intro rest k₁ k₂ h₁ h₂ hp₁ ho₁ hp₂ ho₂
  have hpp₁ : k₁ <+: rest := List.isPrefixOf_iff_prefix.mp hp₁
  have hpp₂ : k₂ <+: rest := List.isPrefixOf_iff_prefix.mp hp₂
  rcases List.prefix_or_prefix_of_prefix hpp₁ hpp₂ with hkk | hkk
  · exact key_prefix_eq h₂ hkk hpp₂ ho₁
  · exact (key_prefix_eq h₁ hkk hpp₁ ho₂).symm

/-- C7 (amended): among the compiled accidental spellings, the only
cross-category prefix pairs are the empty natural spelling (a prefix of
every spelling) and the flat `"b"` as a prefix of the double-flat `"bb"`;
accidental matching in the full grammar is nevertheless unambiguous, because
an accidental followed by a well-formed octave determines the split
uniquely. -/
theorem claim7_amended_thm :
    (∀ k₁ ∈ accidentalKeys, ∀ k₂ ∈ accidentalKeys,
      accOffset k₁ ≠ accOffset k₂ → List.isPrefixOf k₁ k₂ = true →
      k₁ = [] ∨ (k₁ = lit "b" ∧ k₂ = lit "bb")) ∧
    (∀ (rest k₁ k₂ : List Char), k₁ ∈ accidentalKeys → k₂ ∈ accidentalKeys →
      List.isPrefixOf k₁ rest = true → isOctave (rest.drop k₁.length) = true →
      List.isPrefixOf k₂ rest = true → isOctave (rest.drop k₂.length) = true →
      k₁ = k₂) :=
  ⟨by decide, accSplit_unique⟩

/-- Witness for C7's amended statement at the pair `("b", "bb")` and at the
remainder `"b4"`. -/
theorem claim7_wit :
    ((lit "b") = [] ∨ ((lit "b") = lit "b" ∧ (lit "bb") = lit "bb")) ∧
    (lit "b") = (lit "b") :=
  ⟨claim7_amended_thm.1 (lit "b") (by decide) (lit "bb") (by decide)
      (by decide) (by decide),
   claim7_amended_thm.2 (lit "b4") (lit "b") (lit "b") (by decide) (by decide)
      (by decide) (by decide) (by decide) (by decide)⟩
